import Mathlib

/-!
# Call-graph extraction of RS024-sourceexplorer

A shallow embedding of `src/clang_interface.cpp` (the call-graph assembler, the
baseline compiler flags and the textual dump) and of the comparison function
that `FileBrowser::get_directory_files` in `src/gui.cpp` passes to `std::sort`.

Conventions of the embedding.

* The clang front end is external. Its declaration objects are records that
  carry what the code reads from them; the sequence of matches that
  `MatchFinder::matchAST` reports is a list, processed in order.
* `call_graph.nodes` is a `std::vector<std::unique_ptr<FunctionDecl>>` that is
  only ever appended to, so the heap object owned by the entry at position `i`
  never moves. A `FunctionDecl*` obtained from that entry is modelled as the
  position `i`; a position outside the vector is a dangling pointer.
* A `std::ostream` is the text written to it so far; `<<` appends.
-/

namespace clang

/-- A resolved source position (file, line, column) as the front end reports it. -/
structure FullSourceLoc where
  file : String
  line : Nat
  column : Nat
deriving DecidableEq, Repr

/-- The front end's formal-parameter object, reduced to what the projection reads. -/
structure ParmVarDecl where
  getID : Int
  getNameAsString : String
  getTypeAsString : String
deriving DecidableEq, Repr

/-- The front end's function-declaration object, reduced to what the code reads:
its identifier, name, return type, parameters and begin location (a raw
location that `ASTContext::getFullLoc` resolves). -/
structure FunctionDecl where
  getID : Int
  getNameAsString : String
  getReturnTypeAsString : String
  parameters : List ParmVarDecl
  getBeginLoc : Nat
deriving DecidableEq, Repr

/-- A call expression; `getDirectCallee` is `none` for an indirect call. -/
structure CallExpr where
  getDirectCallee : Option FunctionDecl
deriving DecidableEq, Repr

/-- The part of `clang::ASTContext` that `run` uses. -/
structure ASTContext where
  getFullLoc : Nat → FullSourceLoc

/-- One `MatchFinder::MatchResult`: the nodes bound to "caller" and "callee";
`getNodeAs` returns null (`none`) for a missing binding. -/
structure MatchResult where
  caller : Option FunctionDecl
  callee : Option CallExpr
deriving DecidableEq, Repr

end clang

namespace clang_interface

/-- Modelled from the spec: the class `ParamVarDecl` is declared in
`clang_interface.h`, which is not among the sources; section 3 of the
specification gives its attributes `id`, `name` and `type`. -/
structure ParamVarDecl where
  id : Int
  name : String
  type : String
deriving DecidableEq, Repr

/-- Modelled from the spec: the class `FunctionDecl` is declared in
`clang_interface.h`, which is not among the sources; section 3 of the
specification gives its attributes `id`, `name`, `return_type`, `params`
(in declaration order) and `source_location`. -/
structure FunctionDecl where
  id : Int
  name : String
  return_type : String
  params : List ParamVarDecl
  source_location : clang.FullSourceLoc
deriving DecidableEq, Repr

/-- Modelled from the spec: the constructor of `ParamVarDecl` from a front-end
parameter (section 4.3, `project_param`) is defined in the absent header; it
extracts id, name and type. -/
def ParamVarDecl.project (p : clang.ParmVarDecl) : ParamVarDecl :=
  { id := p.getID, name := p.getNameAsString, type := p.getTypeAsString }

/-- Modelled from the spec: the constructor `FunctionDecl(decl, full_loc)` is
defined in the absent header; section 4.3 (`project_function`) says it extracts
id, name and return type and projects each formal parameter in declaration
order. -/
def FunctionDecl.project (d : clang.FunctionDecl) (loc : clang.FullSourceLoc) : FunctionDecl :=
  { id := d.getID, name := d.getNameAsString, return_type := d.getReturnTypeAsString,
    params := d.parameters.map ParamVarDecl.project, source_location := loc }

/-- An edge holds two `FunctionDecl*`; each is the position in `nodes` of the
entry whose `unique_ptr` owns the pointee. -/
structure Edge where
  caller : Nat
  callee : Nat
deriving DecidableEq, Repr

/-- The aggregate `CallGraph`: `nodes` (a vector of owning pointers) and `edges`. -/
structure CallGraph where
  nodes : List FunctionDecl
  edges : List Edge
deriving DecidableEq, Repr

/-- The function `AddEdge`: `call_graph.edges.emplace_back(std::move(edge))`. -/
def AddEdge (call_graph : CallGraph) (edge : Edge) : CallGraph :=
  { call_graph with edges := call_graph.edges ++ [edge] }

/-- The search `std::find_if(begin(nodes), end(nodes), [id](n) { return n->ID() == id; })`
as the position of the first node with that id, or `nodes.length` for `end`. -/
def find_if (nodes : List FunctionDecl) (id : Int) : Nat :=
  nodes.findIdx (fun n => n.id == id)

/-- The callback `CallerCalleeFinderCallback::run`, with the referenced `call_graph` passed in
and returned. -/
def CallerCalleeFinderCallback.run (ast_context : clang.ASTContext) (call_graph : CallGraph)
    (Results : clang.MatchResult) : CallGraph :=
  match Results.caller, Results.callee with
  | some caller_decl, some callee_call_expr_decl =>
    match callee_call_expr_decl.getDirectCallee with
    | none => call_graph
    | some callee_decl =>
      let existing_caller_node := find_if call_graph.nodes caller_decl.getID
      let afterCaller : List FunctionDecl × Nat :=
        if existing_caller_node = call_graph.nodes.length then
          let nodes := call_graph.nodes ++
            [FunctionDecl.project caller_decl (ast_context.getFullLoc caller_decl.getBeginLoc)]
          (nodes, nodes.length - 1)
        else
          (call_graph.nodes, existing_caller_node)
      let new_caller_node := afterCaller.2
      let existing_callee_node := find_if afterCaller.1 callee_decl.getID
      let afterCallee : List FunctionDecl × Nat :=
        if existing_callee_node = afterCaller.1.length then
          let nodes := afterCaller.1 ++
            [FunctionDecl.project callee_decl (ast_context.getFullLoc callee_decl.getBeginLoc)]
          (nodes, nodes.length - 1)
        else
          (afterCaller.1, existing_callee_node)
      let new_callee_node := afterCallee.2
      AddEdge { call_graph with nodes := afterCallee.1 }
        { caller := new_caller_node, callee := new_callee_node }
  | _, _ => call_graph

/-- The function `ExtractCallGraphFromAST`: an empty `CallGraph`, then `run` on every match
that `Finder.matchAST` reports, in order. -/
def ExtractCallGraphFromAST (ast_context : clang.ASTContext)
    (results : List clang.MatchResult) : CallGraph :=
  results.foldl (CallerCalleeFinderCallback.run ast_context) { nodes := [], edges := [] }

/-- The function `BuildASTFromSource`: three `push_back`s on the by-value `compiler_args`, then
the front end `clang::tooling::buildASTFromCodeWithArgs`, taken as a parameter. -/
def BuildASTFromSource {ASTUnit : Type} (buildASTFromCodeWithArgs : String → List String → ASTUnit)
    (source : String) (compiler_args : List String) : ASTUnit :=
  let compiler_args := compiler_args ++ ["-std=c++17"]
  let compiler_args := compiler_args ++ ["-nostdinc++"]
  let compiler_args := compiler_args ++ ["-v"]
  buildASTFromCodeWithArgs source compiler_args

/-- Modelled from the spec: the text that the `DUMP(out, expr)` of the absent
`clang_interface.h` writes for an expression, given the expression's spelling
and its value; one writer for identifiers and one for strings. -/
structure Dump where
  ofId : String → Int → String
  ofString : String → String → String

/-- The stream operator `operator<<(std::ostream&, const ParamVarDecl&)`. -/
def ParamVarDecl.write (D : Dump) (out : String) (param_decl : ParamVarDecl) : String :=
  let out := out ++ D.ofId "param_decl.ID()" param_decl.id
  let out := out ++ D.ofString "param_decl.NameAsString()" param_decl.name
  let out := out ++ D.ofString "param_decl.TypeAsString()" param_decl.type
  out

/-- The stream operator `operator<<(std::ostream&, const FunctionDecl&)`. -/
def FunctionDecl.write (D : Dump) (out : String) (func_decl : FunctionDecl) : String :=
  let out := out ++ D.ofId "func_decl.ID()" func_decl.id
  let out := out ++ D.ofString "func_decl.NameAsString()" func_decl.name
  let out := out ++ D.ofString "func_decl.ReturnTypeAsString()" func_decl.return_type
  func_decl.params.foldl (fun out param => ParamVarDecl.write D out param) out

/-- Dereference of a `FunctionDecl*` held by an edge; `none` when it dangles. -/
def deref (nodes : List FunctionDecl) (p : Nat) : Option FunctionDecl :=
  nodes[p]?

/-- The stream operator `operator<<(std::ostream&, const Edge&)`; it dereferences both pointers, so
it is defined only when both resolve. -/
def Edge.write (D : Dump) (nodes : List FunctionDecl) (out : String) (edge : Edge) :
    Option String :=
  match deref nodes edge.caller, deref nodes edge.callee with
  | some caller, some callee =>
    let out := out ++ D.ofId "edge.caller->ID()" caller.id
    let out := out ++ D.ofId "edge.callee->ID()" callee.id
    some out
  | _, _ => none

/-- The stream operator `operator<<(std::ostream&, const CallGraph&)`. -/
def CallGraph.write (D : Dump) (out : String) (call_graph : CallGraph) : Option String :=
  let out := out ++ "--NODES--\n"
  let out := call_graph.nodes.foldl
    (fun out node =>
      let out := out ++ "Node:\n"
      FunctionDecl.write D out node ++ "\n") out
  let out := out ++ "\n--EDGES--\n"
  call_graph.edges.foldlM
    (fun out edge =>
      let out := out ++ "Edge:\n"
      (Edge.write D call_graph.nodes out edge).map (fun out => out ++ "\n")) out

end clang_interface
namespace clang_interface

/-! ## Definitions used to state the properties -/

/-- One lookup-or-insert of `run`: the node list after `find_if` for the id of
`n` followed by `emplace_back` of `n` when the search ended at `end(nodes)`. -/
def lookupOrInsert (nodes : List FunctionDecl) (n : FunctionDecl) : List FunctionDecl :=
  if find_if nodes n.id = nodes.length then nodes ++ [n] else nodes

/-- The (caller id, callee id) pair of a match that has a direct callee: both
bindings are present and `getDirectCallee` is not null. `none` for every other
match. -/
def directCall (m : clang.MatchResult) : Option (Int × Int) :=
  match m.caller, m.callee with
  | some caller_decl, some call_expr =>
    call_expr.getDirectCallee.map (fun callee_decl => (caller_decl.getID, callee_decl.getID))
  | _, _ => none

/-- The (caller id, callee id) pairs of the matches that have a direct callee,
in match order. -/
def callPairs (ms : List clang.MatchResult) : List (Int × Int) := ms.filterMap directCall

/-- The id sequence of a match list: for each match that has a direct callee, in
match order, its caller id followed by its callee id. -/
def idSequence (ms : List clang.MatchResult) : List Int :=
  (callPairs ms).flatMap (fun p => [p.1, p.2])

/-- First-occurrence de-duplication: every value is kept where it occurs first
and dropped everywhere later. -/
def firstOccurrences : List Int → List Int
  | [] => []
  | x :: xs => x :: (firstOccurrences xs).filter (fun y => y ≠ x)

/-- The ids of the nodes an edge points to, when both pointers resolve in `nodes`. -/
def edgeIds (nodes : List FunctionDecl) (e : Edge) : Option (Int × Int) :=
  match deref nodes e.caller, deref nodes e.callee with
  | some caller, some callee => some (caller.id, callee.id)
  | _, _ => none

/-- The rendering of a parameter: its id, name and type. -/
def ParamVarDecl.rendering (D : Dump) (p : ParamVarDecl) : String :=
  D.ofId "param_decl.ID()" p.id ++ D.ofString "param_decl.NameAsString()" p.name ++
    D.ofString "param_decl.TypeAsString()" p.type

/-- The rendering of a node: its id, name and return type, then the rendering of
each parameter in parameter order. -/
def FunctionDecl.rendering (D : Dump) (f : FunctionDecl) : String :=
  D.ofId "func_decl.ID()" f.id ++ D.ofString "func_decl.NameAsString()" f.name ++
    D.ofString "func_decl.ReturnTypeAsString()" f.return_type ++
    String.join (f.params.map (ParamVarDecl.rendering D))

/-- The rendering of an edge whose caller and callee have the given ids: the
caller id, then the callee id. -/
def edgeRendering (D : Dump) (p : Int × Int) : String :=
  D.ofId "edge.caller->ID()" p.1 ++ D.ofId "edge.callee->ID()" p.2

end clang_interface

namespace gui

/-- A canonical path as the sequence of its elements. -/
abbrev Path := List String

/-- The three-way `std::filesystem::path::compare` on canonical paths: the
elements are compared lexicographically; negative, zero or positive. -/
def Path.compare : Path → Path → Int
  | [], [] => 0
  | [], _ :: _ => -1
  | _ :: _, [] => 1
  | a :: as, b :: bs => if a < b then -1 else if b < a then 1 else Path.compare as bs

/-- The comparison function that `FileBrowser::get_directory_files` passes to
`std::sort`, with `fs::is_directory` a fixed predicate on paths. -/
def FileBrowser.get_directory_files.comp (is_directory : Path → Bool)
    (entry1 entry2 : Path) : Bool :=
  if is_directory entry1 then
    if !is_directory entry2 then true
    else decide (Path.compare entry1 entry2 ≤ 0)
  else if is_directory entry2 then false
  else decide (Path.compare entry1 entry2 ≤ 0)

end gui

namespace clang_interface

/-! ## Lookup by id -/

theorem find_if_eq_length_iff (nodes : List FunctionDecl) (x : Int) :
    find_if nodes x = nodes.length ↔ x ∉ nodes.map (fun n => n.id) := by
  unfold find_if
  rw [List.findIdx_eq_length]
  simp only [List.mem_map, not_exists, not_and, beq_eq_false_iff_ne, ne_eq]

theorem find_if_le_length (nodes : List FunctionDecl) (x : Int) :
    find_if nodes x ≤ nodes.length := List.findIdx_le_length _

theorem find_if_append_new (nodes : List FunctionDecl) (n : FunctionDecl)
    (h : find_if nodes n.id = nodes.length) : find_if (nodes ++ [n]) n.id = nodes.length := by
  unfold find_if at *
  rw [List.findIdx_append, if_neg (by omega)]
  simp [List.findIdx_cons]

theorem find_if_getElem? (nodes : List FunctionDecl) (x : Int)
    (h : find_if nodes x < nodes.length) : ∃ n, nodes[find_if nodes x]? = some n ∧ n.id = x := by
  refine ⟨nodes[find_if nodes x], by simp [h], ?_⟩
  have := @List.findIdx_getElem _ (fun n : FunctionDecl => n.id == x) nodes h
  simpa using this

theorem lookup_pair (nodes : List FunctionDecl) (n : FunctionDecl) (x : Int) (hx : n.id = x) :
    (if find_if nodes x = nodes.length then
        (nodes ++ [n], (nodes ++ [n]).length - 1)
      else (nodes, find_if nodes x)) =
    (lookupOrInsert nodes n, find_if (lookupOrInsert nodes n) x) := by
  subst hx
  unfold lookupOrInsert
  by_cases h : find_if nodes n.id = nodes.length
  · rw [if_pos h, if_pos h, find_if_append_new nodes n h]
    simp
  · rw [if_neg h, if_neg h]

theorem run_of_direct (ast_context : clang.ASTContext) (cg : CallGraph)
    (c d : clang.FunctionDecl) :
    CallerCalleeFinderCallback.run ast_context cg ⟨some c, some ⟨some d⟩⟩ =
      { nodes := lookupOrInsert
          (lookupOrInsert cg.nodes (FunctionDecl.project c (ast_context.getFullLoc c.getBeginLoc)))
          (FunctionDecl.project d (ast_context.getFullLoc d.getBeginLoc)),
        edges := cg.edges ++
          [{ caller := find_if (lookupOrInsert cg.nodes
                (FunctionDecl.project c (ast_context.getFullLoc c.getBeginLoc))) c.getID,
             callee := find_if (lookupOrInsert
                (lookupOrInsert cg.nodes
                  (FunctionDecl.project c (ast_context.getFullLoc c.getBeginLoc)))
                (FunctionDecl.project d (ast_context.getFullLoc d.getBeginLoc))) d.getID }] } := by
  simp only [CallerCalleeFinderCallback.run, AddEdge]
  rw [lookup_pair cg.nodes (FunctionDecl.project c (ast_context.getFullLoc c.getBeginLoc))
    c.getID rfl]
  simp only []
  rw [lookup_pair _ (FunctionDecl.project d (ast_context.getFullLoc d.getBeginLoc))
    d.getID rfl]


theorem mem_firstOccurrences (l : List Int) (x : Int) : x ∈ firstOccurrences l ↔ x ∈ l := by
  induction l with
  | nil => simp [firstOccurrences]
  | cons a l ih =>
    simp only [firstOccurrences, List.mem_cons, List.mem_filter, ih, decide_eq_true_eq]
    by_cases h : x = a <;> simp [h]

theorem nodup_firstOccurrences (l : List Int) : (firstOccurrences l).Nodup := by
  induction l with
  | nil => simp [firstOccurrences]
  | cons a l ih =>
    simp only [firstOccurrences, List.nodup_cons, List.mem_filter, decide_eq_true_eq]
    exact ⟨fun h => h.2 rfl, ih.filter _⟩

theorem firstOccurrences_concat (l : List Int) (x : Int) :
    firstOccurrences (l ++ [x]) =
      if x ∈ l then firstOccurrences l else firstOccurrences l ++ [x] := by
  induction l with
  | nil => simp [firstOccurrences]
  | cons a l ih =>
    rw [List.cons_append, firstOccurrences, ih, firstOccurrences]
    by_cases hxa : x = a
    · subst hxa
      by_cases hxl : x ∈ l <;> simp [hxl, List.filter_append]
    · by_cases hxl : x ∈ l <;> simp [hxl, hxa, List.filter_append]

theorem lookupOrInsert_ids (nodes : List FunctionDecl) (n : FunctionDecl) (l : List Int)
    (h : nodes.map (fun n => n.id) = firstOccurrences l) :
    (lookupOrInsert nodes n).map (fun n => n.id) = firstOccurrences (l ++ [n.id]) := by
  unfold lookupOrInsert
  rw [firstOccurrences_concat]
  by_cases hx : n.id ∈ l
  · have : ¬ find_if nodes n.id = nodes.length := by
      rw [find_if_eq_length_iff, h, mem_firstOccurrences]; exact not_not.mpr hx
    rw [if_neg this, if_pos hx, h]
  · have : find_if nodes n.id = nodes.length := by
      rw [find_if_eq_length_iff, h, mem_firstOccurrences]; exact hx
    rw [if_pos this, if_neg hx, List.map_append, h]
    rfl

theorem lookupOrInsert_eq_append (nodes : List FunctionDecl) (n : FunctionDecl) :
    ∃ t, lookupOrInsert nodes n = nodes ++ t ∧ t.length ≤ 1 := by
  unfold lookupOrInsert
  by_cases h : find_if nodes n.id = nodes.length
  · exact ⟨[n], by rw [if_pos h], by simp⟩
  · exact ⟨[], by rw [if_neg h]; simp, by simp⟩

theorem find_if_lookupOrInsert (nodes : List FunctionDecl) (n : FunctionDecl) :
    find_if (lookupOrInsert nodes n) n.id < (lookupOrInsert nodes n).length := by
  unfold lookupOrInsert
  by_cases h : find_if nodes n.id = nodes.length
  · rw [if_pos h, find_if_append_new nodes n h]; simp
  · rw [if_neg h]
    exact lt_of_le_of_ne (find_if_le_length _ _) h

theorem deref_append (nodes t : List FunctionDecl) (p : Nat) (n : FunctionDecl)
    (h : deref nodes p = some n) : deref (nodes ++ t) p = some n := by
  unfold deref at *
  have hp : p < nodes.length := by
    by_contra hc
    rw [List.getElem?_eq_none (by omega)] at h
    exact Option.noConfusion h
  rw [List.getElem?_append_left hp, h]

theorem edgeIds_append (nodes t : List FunctionDecl) (e : Edge) (p : Int × Int)
    (h : edgeIds nodes e = some p) : edgeIds (nodes ++ t) e = some p := by
  unfold edgeIds at *
  cases h1 : deref nodes e.caller with
  | none => simp [h1] at h
  | some a =>
    cases h2 : deref nodes e.callee with
    | none => simp [h1, h2] at h
    | some b =>
      rw [deref_append _ _ _ _ h1, deref_append _ _ _ _ h2]
      simpa [h1, h2] using h

theorem edgeIds_new (nodes : List FunctionDecl) (c d : FunctionDecl) :
    edgeIds (lookupOrInsert (lookupOrInsert nodes c) d)
      { caller := find_if (lookupOrInsert nodes c) c.id,
        callee := find_if (lookupOrInsert (lookupOrInsert nodes c) d) d.id } =
      some (c.id, d.id) := by
  obtain ⟨a, ha, hai⟩ := find_if_getElem? _ _ (find_if_lookupOrInsert nodes c)
  obtain ⟨b, hb, hbi⟩ := find_if_getElem? _ _ (find_if_lookupOrInsert (lookupOrInsert nodes c) d)
  obtain ⟨t, ht, -⟩ := lookupOrInsert_eq_append (lookupOrInsert nodes c) d
  have ha2 : deref (lookupOrInsert (lookupOrInsert nodes c) d)
      (find_if (lookupOrInsert nodes c) c.id) = some a := by
    rw [ht]; exact deref_append _ _ _ _ ha
  unfold edgeIds
  simp only [ha2]
  have hb2 : deref (lookupOrInsert (lookupOrInsert nodes c) d)
      (find_if (lookupOrInsert (lookupOrInsert nodes c) d) d.id) = some b := hb
  simp only [hb2, hai, hbi]


/-! ## One step of the assembler -/

theorem run_of_skip (ast_context : clang.ASTContext) (cg : CallGraph) (m : clang.MatchResult)
    (h : directCall m = none) : CallerCalleeFinderCallback.run ast_context cg m = cg := by
  obtain ⟨caller, callee⟩ := m
  cases caller with
  | none => simp [CallerCalleeFinderCallback.run]
  | some c =>
    cases callee with
    | none => simp [CallerCalleeFinderCallback.run]
    | some e =>
      obtain ⟨dc⟩ := e
      cases dc with
      | none => simp [CallerCalleeFinderCallback.run]
      | some d => simp [directCall] at h

theorem directCall_eq_some (m : clang.MatchResult) (p : Int × Int) (h : directCall m = some p) :
    ∃ c d, m = ⟨some c, some ⟨some d⟩⟩ ∧ p = (c.getID, d.getID) := by
  obtain ⟨caller, callee⟩ := m
  cases caller with
  | none => simp [directCall] at h
  | some c =>
    cases callee with
    | none => simp [directCall] at h
    | some e =>
      obtain ⟨dc⟩ := e
      cases dc with
      | none => simp [directCall] at h
      | some d =>
        refine ⟨c, d, rfl, ?_⟩
        simp [directCall] at h
        exact h.symm

theorem extract_concat (ast_context : clang.ASTContext) (ms : List clang.MatchResult)
    (m : clang.MatchResult) :
    ExtractCallGraphFromAST ast_context (ms ++ [m]) =
      CallerCalleeFinderCallback.run ast_context (ExtractCallGraphFromAST ast_context ms) m := by
  simp [ExtractCallGraphFromAST, List.foldl_append]

/-- The invariant of the fold: the node ids are the first occurrences of the id
sequence and every edge resolves to the id pair of its match. -/
theorem extract_invariant (ast_context : clang.ASTContext) (ms : List clang.MatchResult) :
    (ExtractCallGraphFromAST ast_context ms).nodes.map (fun n => n.id) =
        firstOccurrences (idSequence ms) ∧
      (ExtractCallGraphFromAST ast_context ms).edges.map
          (edgeIds (ExtractCallGraphFromAST ast_context ms).nodes) =
        (callPairs ms).map some := by
  induction ms using List.reverseRecOn with
  | nil => simp [ExtractCallGraphFromAST, idSequence, callPairs, firstOccurrences]
  | append_singleton ms m ih =>
    rw [extract_concat]
    obtain ⟨ihn, ihe⟩ := ih
    cases hm : directCall m with
    | none =>
      rw [run_of_skip _ _ _ hm]
      have hp : callPairs (ms ++ [m]) = callPairs ms := by
        simp [callPairs, List.filterMap_append, hm]
      simp only [idSequence, hp]
      exact ⟨ihn, ihe⟩
    | some p =>
      obtain ⟨c, d, rfl, rfl⟩ := directCall_eq_some m p hm
      have hp : callPairs (ms ++ [⟨some c, some ⟨some d⟩⟩]) =
          callPairs ms ++ [(c.getID, d.getID)] := by
        simp [callPairs, List.filterMap_append, hm]
      have hs : idSequence (ms ++ [⟨some c, some ⟨some d⟩⟩]) =
          (idSequence ms ++ [c.getID]) ++ [d.getID] := by
        simp [idSequence, hp, List.flatMap_append]
      rw [run_of_direct, hp, hs]
      constructor
      · exact lookupOrInsert_ids _ _ _ (lookupOrInsert_ids _ _ _ ihn)
      · obtain ⟨t1, ht1, -⟩ := lookupOrInsert_eq_append
          (ExtractCallGraphFromAST ast_context ms).nodes
          (FunctionDecl.project c (ast_context.getFullLoc c.getBeginLoc))
        obtain ⟨t2, ht2, -⟩ := lookupOrInsert_eq_append
          (lookupOrInsert (ExtractCallGraphFromAST ast_context ms).nodes
            (FunctionDecl.project c (ast_context.getFullLoc c.getBeginLoc)))
          (FunctionDecl.project d (ast_context.getFullLoc d.getBeginLoc))
        simp only [List.map_append, List.map_cons, List.map_nil]
        congr 1
        · rw [← ihe]
          apply List.map_congr_left
          intro e he
          have hres : ∃ q, edgeIds (ExtractCallGraphFromAST ast_context ms).nodes e = some q := by
            have : edgeIds (ExtractCallGraphFromAST ast_context ms).nodes e ∈
                (callPairs ms).map some := by
              rw [← ihe]; exact List.mem_map_of_mem _ he
            obtain ⟨q, -, hq⟩ := List.mem_map.mp this
            exact ⟨q, hq.symm⟩
          obtain ⟨q, hq⟩ := hres
          rw [hq, ht2, ht1, List.append_assoc]
          exact edgeIds_append _ _ _ _ hq
        · have := edgeIds_new (ExtractCallGraphFromAST ast_context ms).nodes
            (FunctionDecl.project c (ast_context.getFullLoc c.getBeginLoc))
            (FunctionDecl.project d (ast_context.getFullLoc d.getBeginLoc))
          exact congrArg (fun x => [x]) this


theorem filter_length_map {α β : Type} [DecidableEq β] (F : α → β) (b : β) (l : List α) :
    (l.filter (fun x => F x = b)).length = ((l.map F).filter (fun y => y = b)).length := by
  induction l with
  | nil => simp
  | cons a l ih =>
    by_cases h : F a = b <;> simp [List.filter_cons, h, ih]

theorem filter_length_filterMap {α β : Type} [DecidableEq β] (F : α → Option β) (b : β)
    (l : List α) :
    (((l.filterMap F).map some).filter (fun y => y = some b)).length =
      (l.filter (fun x => F x = some b)).length := by
  induction l with
  | nil => simp
  | cons a l ih =>
    cases h : F a with
    | none => simp [List.filterMap_cons, List.filter_cons, h, ih]
    | some c =>
      by_cases hc : c = b <;> simp [List.filterMap_cons, List.filter_cons, h, ih, hc]

theorem edgeIds_deref (nodes : List FunctionDecl) (e : Edge) (p : Int × Int)
    (h : edgeIds nodes e = some p) :
    ∃ a b, deref nodes e.caller = some a ∧ deref nodes e.callee = some b ∧
      a.id = p.1 ∧ b.id = p.2 := by
  unfold edgeIds at h
  cases h1 : deref nodes e.caller with
  | none => simp [h1] at h
  | some a =>
    cases h2 : deref nodes e.callee with
    | none => simp [h1, h2] at h
    | some b =>
      simp [h1, h2] at h
      exact ⟨a, b, rfl, rfl, by rw [← h], by rw [← h]⟩

/-! ## Properties of the call-graph assembler -/

/-- C1 (node uniqueness): after extraction over any sequence of matches, no two
nodes have the same id, and the number of nodes is the number of distinct ids
occurring as caller or callee among the matches that have a direct callee. -/
theorem extract_nodes_unique (ast_context : clang.ASTContext) (ms : List clang.MatchResult) :
    ((ExtractCallGraphFromAST ast_context ms).nodes.map (fun n => n.id)).Nodup ∧
      (ExtractCallGraphFromAST ast_context ms).nodes.length = (idSequence ms).toFinset.card := by
  have hinv := (extract_invariant ast_context ms).1
  constructor
  · rw [hinv]; exact nodup_firstOccurrences _
  · have hset : (firstOccurrences (idSequence ms)).toFinset = (idSequence ms).toFinset := by
      ext x; simp [mem_firstOccurrences]
    rw [← hset, List.toFinset_card_of_nodup (nodup_firstOccurrences _), ← hinv, List.length_map]

/-- C2 (edge multiplicity): for all ids `f` and `g`, the number of edges whose
caller has id `f` and whose callee has id `g` is the number of matches with
caller id `f` and direct callee id `g`; and the edge list, read as id pairs, is
the list of id pairs of the matches that have a direct callee, in match order. -/
theorem extract_edge_multiplicity (ast_context : clang.ASTContext)
    (ms : List clang.MatchResult) :
    (∀ f g : Int,
      ((ExtractCallGraphFromAST ast_context ms).edges.filter
          (fun e => edgeIds (ExtractCallGraphFromAST ast_context ms).nodes e = some (f, g))).length =
        (ms.filter (fun m => directCall m = some (f, g))).length) ∧
      (ExtractCallGraphFromAST ast_context ms).edges.map
          (edgeIds (ExtractCallGraphFromAST ast_context ms).nodes) =
        (callPairs ms).map some := by
  have hinv := (extract_invariant ast_context ms).2
  refine ⟨fun f g => ?_, hinv⟩
  rw [filter_length_map, hinv, callPairs, filter_length_filterMap]

/-- C4 (edge referential integrity): after every step of the fold (that is, for
the graph built from the first `k` matches, for every `k`), both pointers of
every edge resolve to entries of the node list of that graph. -/
theorem extract_edges_resolve (ast_context : clang.ASTContext) (ms : List clang.MatchResult)
    (k : Nat) :
    ∀ e ∈ (ExtractCallGraphFromAST ast_context (ms.take k)).edges,
      ∃ a b, deref (ExtractCallGraphFromAST ast_context (ms.take k)).nodes e.caller = some a ∧
        deref (ExtractCallGraphFromAST ast_context (ms.take k)).nodes e.callee = some b ∧
        a ∈ (ExtractCallGraphFromAST ast_context (ms.take k)).nodes ∧
        b ∈ (ExtractCallGraphFromAST ast_context (ms.take k)).nodes := by
  intro e he
  have hinv := (extract_invariant ast_context (ms.take k)).2
  have hmem : edgeIds (ExtractCallGraphFromAST ast_context (ms.take k)).nodes e ∈
      (callPairs (ms.take k)).map some := by
    rw [← hinv]; exact List.mem_map_of_mem _ he
  obtain ⟨q, -, hq⟩ := List.mem_map.mp hmem
  obtain ⟨a, b, ha, hb, -, -⟩ := edgeIds_deref _ _ _ hq.symm
  exact ⟨a, b, ha, hb, List.getElem?_mem ha, List.getElem?_mem hb⟩

/-- Witness for C4: after the first of two matches (1 calls 2, then 2 calls 3)
the only edge points at the two nodes inserted for it. -/
theorem extract_edges_resolve_witness :
    ({ caller := 0, callee := 1 } : Edge) ∈
        (ExtractCallGraphFromAST { getFullLoc := fun _ => ⟨"a.cpp", 1, 1⟩ }
          (([⟨some ⟨1, "f", "int", [], 1⟩, some ⟨some ⟨2, "g", "int", [], 2⟩⟩⟩,
             ⟨some ⟨2, "g", "int", [], 2⟩, some ⟨some ⟨3, "h", "int", [], 3⟩⟩⟩] :
            List clang.MatchResult).take 1)).edges ∧
      ∃ a b,
        deref (ExtractCallGraphFromAST { getFullLoc := fun _ => ⟨"a.cpp", 1, 1⟩ }
          (([⟨some ⟨1, "f", "int", [], 1⟩, some ⟨some ⟨2, "g", "int", [], 2⟩⟩⟩,
             ⟨some ⟨2, "g", "int", [], 2⟩, some ⟨some ⟨3, "h", "int", [], 3⟩⟩⟩] :
            List clang.MatchResult).take 1)).nodes 0 = some a ∧
        deref (ExtractCallGraphFromAST { getFullLoc := fun _ => ⟨"a.cpp", 1, 1⟩ }
          (([⟨some ⟨1, "f", "int", [], 1⟩, some ⟨some ⟨2, "g", "int", [], 2⟩⟩⟩,
             ⟨some ⟨2, "g", "int", [], 2⟩, some ⟨some ⟨3, "h", "int", [], 3⟩⟩⟩] :
            List clang.MatchResult).take 1)).nodes 1 = some b ∧
        a ∈ (ExtractCallGraphFromAST { getFullLoc := fun _ => ⟨"a.cpp", 1, 1⟩ }
          (([⟨some ⟨1, "f", "int", [], 1⟩, some ⟨some ⟨2, "g", "int", [], 2⟩⟩⟩,
             ⟨some ⟨2, "g", "int", [], 2⟩, some ⟨some ⟨3, "h", "int", [], 3⟩⟩⟩] :
            List clang.MatchResult).take 1)).nodes ∧
        b ∈ (ExtractCallGraphFromAST { getFullLoc := fun _ => ⟨"a.cpp", 1, 1⟩ }
          (([⟨some ⟨1, "f", "int", [], 1⟩, some ⟨some ⟨2, "g", "int", [], 2⟩⟩⟩,
             ⟨some ⟨2, "g", "int", [], 2⟩, some ⟨some ⟨3, "h", "int", [], 3⟩⟩⟩] :
            List clang.MatchResult).take 1)).nodes :=
  ⟨by decide,
    extract_edges_resolve { getFullLoc := fun _ => ⟨"a.cpp", 1, 1⟩ }
      [⟨some ⟨1, "f", "int", [], 1⟩, some ⟨some ⟨2, "g", "int", [], 2⟩⟩⟩,
       ⟨some ⟨2, "g", "int", [], 2⟩, some ⟨some ⟨3, "h", "int", [], 3⟩⟩⟩]
      1 { caller := 0, callee := 1 } (by decide)⟩

/-- C5 (node membership): the extracted graph has a node with id `x` exactly when
`x` is the caller id or the direct-callee id of some match that has a direct
callee. -/
theorem extract_node_membership (ast_context : clang.ASTContext)
    (ms : List clang.MatchResult) (x : Int) :
    (∃ n ∈ (ExtractCallGraphFromAST ast_context ms).nodes, n.id = x) ↔
      (∃ m ∈ ms, ∃ f g, directCall m = some (f, g) ∧ (x = f ∨ x = g)) := by
  have hinv := (extract_invariant ast_context ms).1
  have h1 : (∃ n ∈ (ExtractCallGraphFromAST ast_context ms).nodes, n.id = x) ↔
      x ∈ (ExtractCallGraphFromAST ast_context ms).nodes.map (fun n => n.id) := by
    simp [List.mem_map]
  rw [h1, hinv, mem_firstOccurrences]
  simp only [idSequence, callPairs, List.mem_flatMap, List.mem_filterMap, List.mem_cons,
    List.mem_singleton, List.not_mem_nil, or_false]
  constructor
  · rintro ⟨p, ⟨m, hm, hp⟩, hx⟩
    exact ⟨m, hm, p.1, p.2, hp, hx⟩
  · rintro ⟨m, hm, f, g, hp, hx⟩
    exact ⟨(f, g), ⟨m, hm, hp⟩, hx⟩

/-- C9 (node insertion order): the node ids, in node-list order, are the
first-occurrence de-duplication of the id sequence (caller id then callee id of
each match that has a direct callee, in match order); and a single
self-recursive match (callee id equal to caller id) yields one node, the
caller, and one self-loop edge. -/
theorem extract_node_order (ast_context : clang.ASTContext) (ms : List clang.MatchResult) :
    (ExtractCallGraphFromAST ast_context ms).nodes.map (fun n => n.id) =
        firstOccurrences (idSequence ms) ∧
      ∀ c d : clang.FunctionDecl,
        ExtractCallGraphFromAST ast_context
            [⟨some c, some ⟨some { d with getID := c.getID }⟩⟩] =
          { nodes := [FunctionDecl.project c (ast_context.getFullLoc c.getBeginLoc)],
            edges := [{ caller := 0, callee := 0 }] } := by
  refine ⟨(extract_invariant ast_context ms).1, fun c d => ?_⟩
  simp [ExtractCallGraphFromAST, CallerCalleeFinderCallback.run, find_if, AddEdge,
    FunctionDecl.project, List.findIdx_cons]


/-- C3 (indirect-call exclusion): for every graph state, a match whose caller
binding or call-expression binding is missing, or whose call expression has no
direct callee, leaves the node list and the edge list as they were. -/
theorem run_indirect_unchanged (ast_context : clang.ASTContext) (cg : CallGraph)
    (m : clang.MatchResult)
    (h : m.caller = none ∨ m.callee = none ∨ m.callee = some { getDirectCallee := none }) :
    (CallerCalleeFinderCallback.run ast_context cg m).nodes = cg.nodes ∧
      (CallerCalleeFinderCallback.run ast_context cg m).edges = cg.edges := by
  have hd : directCall m = none := by
    obtain ⟨caller, callee⟩ := m
    rcases h with h | h | h
    · simp only at h; subst h; simp [directCall]
    · simp only at h; subst h
      cases caller <;> simp [directCall]
    · simp only at h; subst h
      cases caller <;> simp [directCall]
  rw [run_of_skip _ _ _ hd]
  exact ⟨rfl, rfl⟩

/-- Witness for C3: an indirect call inside function 7, met when the graph holds
only node 1, inserts no node for 7 and adds no edge. -/
theorem run_indirect_unchanged_witness :
    ((⟨some ⟨7, "g", "void", [], 3⟩, some { getDirectCallee := none }⟩ :
          clang.MatchResult).callee = some { getDirectCallee := none }) ∧
      (CallerCalleeFinderCallback.run { getFullLoc := fun _ => ⟨"a.cpp", 1, 1⟩ }
        { nodes := [⟨1, "f", "int", [], ⟨"a.cpp", 1, 1⟩⟩], edges := [] }
        { caller := some ⟨7, "g", "void", [], 3⟩,
          callee := some { getDirectCallee := none } }).nodes =
        [⟨1, "f", "int", [], ⟨"a.cpp", 1, 1⟩⟩] ∧
      (CallerCalleeFinderCallback.run { getFullLoc := fun _ => ⟨"a.cpp", 1, 1⟩ }
        { nodes := [⟨1, "f", "int", [], ⟨"a.cpp", 1, 1⟩⟩], edges := [] }
        { caller := some ⟨7, "g", "void", [], 3⟩,
          callee := some { getDirectCallee := none } }).edges = [] :=
  ⟨rfl, run_indirect_unchanged _ _ _ (Or.inr (Or.inr rfl))⟩

/-- C6 (append-only growth): for every graph state and every match, the old node
list and the old edge list are prefixes of the new ones; a match with a direct
callee adds exactly one edge and at most two nodes, any other match adds
nothing. -/
theorem run_append_only (ast_context : clang.ASTContext) (cg : CallGraph)
    (m : clang.MatchResult) :
    ∃ ns es,
      (CallerCalleeFinderCallback.run ast_context cg m).nodes = cg.nodes ++ ns ∧
      (CallerCalleeFinderCallback.run ast_context cg m).edges = cg.edges ++ es ∧
      es.length = (if (directCall m).isSome then 1 else 0) ∧
      ns.length ≤ (if (directCall m).isSome then 2 else 0) := by
  cases hm : directCall m with
  | none =>
    rw [run_of_skip _ _ _ hm]
    exact ⟨[], [], by simp, by simp, by simp, by simp⟩
  | some p =>
    obtain ⟨c, d, rfl, rfl⟩ := directCall_eq_some m p hm
    rw [run_of_direct]
    obtain ⟨t1, ht1, hl1⟩ := lookupOrInsert_eq_append cg.nodes
      (FunctionDecl.project c (ast_context.getFullLoc c.getBeginLoc))
    obtain ⟨t2, ht2, hl2⟩ := lookupOrInsert_eq_append
      (lookupOrInsert cg.nodes (FunctionDecl.project c (ast_context.getFullLoc c.getBeginLoc)))
      (FunctionDecl.project d (ast_context.getFullLoc d.getBeginLoc))
    refine ⟨t1 ++ t2, _, ?_, rfl, by simp, ?_⟩
    · show lookupOrInsert (lookupOrInsert cg.nodes _) _ = _
      rw [ht2, ht1, List.append_assoc]
    · simp only [Option.isSome_some, if_true, List.length_append]
      omega

/-- C7 (baseline flags): the argument list handed to the front end is
`compiler_args`, unchanged and in order, followed by exactly "-std=c++17",
"-nostdinc++" and "-v", whatever the source and the front end. -/
theorem BuildASTFromSource_args {ASTUnit : Type}
    (buildASTFromCodeWithArgs : String → List String → ASTUnit)
    (source : String) (compiler_args : List String) :
    BuildASTFromSource buildASTFromCodeWithArgs source compiler_args =
        buildASTFromCodeWithArgs source (compiler_args ++ ["-std=c++17", "-nostdinc++", "-v"]) ∧
      (BuildASTFromSource (fun _ args => args) source compiler_args).take compiler_args.length =
        compiler_args ∧
      (BuildASTFromSource (fun _ args => args) source compiler_args).drop compiler_args.length =
        ["-std=c++17", "-nostdinc++", "-v"] := by
  simp [BuildASTFromSource]


/-! ## Properties of the textual dump -/

theorem foldl_append_string (l : List String) (a : String) :
    l.foldl (fun r s => r ++ s) a = a ++ String.join l := by
  have aux : ∀ (l : List String) (a : String),
      l.foldl (fun r s => r ++ s) a = a ++ l.foldl (fun r s => r ++ s) "" := by
    intro l
    induction l with
    | nil => intro a; simp
    | cons x l ih =>
      intro a
      rw [List.foldl_cons, List.foldl_cons, ih (a ++ x), ih ("" ++ x)]
      simp [String.append_assoc]
  exact aux l a

theorem foldl_write {α : Type} (w : String → α → String) (r : α → String)
    (hw : ∀ out x, w out x = out ++ r x) (l : List α) (a : String) :
    l.foldl w a = a ++ String.join (l.map r) := by
  induction l generalizing a with
  | nil => simp [String.join]
  | cons x l ih =>
    rw [List.foldl_cons, ih, hw, List.map_cons]
    unfold String.join
    rw [List.foldl_cons, foldl_append_string, foldl_append_string]
    simp [String.append_assoc]

theorem ParamVarDecl_write_eq (D : Dump) (out : String) (p : ParamVarDecl) :
    ParamVarDecl.write D out p = out ++ ParamVarDecl.rendering D p := by
  simp [ParamVarDecl.write, ParamVarDecl.rendering, String.append_assoc]

theorem FunctionDecl_write_eq (D : Dump) (out : String) (f : FunctionDecl) :
    FunctionDecl.write D out f = out ++ FunctionDecl.rendering D f := by
  simp only [FunctionDecl.write, FunctionDecl.rendering]
  rw [foldl_write _ (ParamVarDecl.rendering D) (ParamVarDecl_write_eq D)]
  simp [String.append_assoc]

theorem Edge_write_eq (D : Dump) (nodes : List FunctionDecl) (out : String) (e : Edge)
    (p : Int × Int) (h : edgeIds nodes e = some p) :
    Edge.write D nodes out e = some (out ++ edgeRendering D p) := by
  obtain ⟨a, b, ha, hb, hpa, hpb⟩ := edgeIds_deref nodes e p h
  simp [Edge.write, ha, hb, edgeRendering, hpa, hpb, String.append_assoc]

theorem edgeIds_of_lt (nodes : List FunctionDecl) (e : Edge)
    (h : e.caller < nodes.length ∧ e.callee < nodes.length) :
    ∃ p, edgeIds nodes e = some p := by
  unfold edgeIds deref
  rw [List.getElem?_eq_getElem h.1, List.getElem?_eq_getElem h.2]
  exact ⟨_, rfl⟩

theorem foldlM_edges (D : Dump) (nodes : List FunctionDecl) (es : List Edge)
    (h : ∀ e ∈ es, e.caller < nodes.length ∧ e.callee < nodes.length) (a : String) :
    es.foldlM (fun out edge =>
        (Edge.write D nodes (out ++ "Edge:\n") edge).map (fun out => out ++ "\n")) a =
      some (a ++ String.join ((es.filterMap (edgeIds nodes)).map
        (fun p => "Edge:\n" ++ edgeRendering D p ++ "\n"))) := by
  induction es generalizing a with
  | nil => simp [String.join]
  | cons e es ih =>
    obtain ⟨p, hp⟩ := edgeIds_of_lt nodes e (h e (List.mem_cons_self _ _))
    rw [List.foldlM_cons, Edge_write_eq D nodes _ e p hp]
    simp only [Option.map_some', Option.bind_eq_bind, Option.some_bind]
    rw [ih (fun e1 h1 => h e1 (List.mem_cons_of_mem _ h1)), List.filterMap_cons, hp,
      List.map_cons]
    unfold String.join
    rw [List.foldl_cons, foldl_append_string, foldl_append_string]
    simp [String.append_assoc]

/-- C8 (dump structure): for every graph whose edge pointers resolve, the text
written is the header "--NODES--", one block "Node:" + rendering + newline per
node in node order, the separator "--EDGES--", and one block "Edge:" + rendering
+ newline per edge in edge order; a node renders as its id, name and return
type followed by each parameter's id, name and type, an edge as the caller id
then the callee id. -/
theorem CallGraph_write_structure (D : Dump) (out : String) (cg : CallGraph)
    (h : ∀ e ∈ cg.edges, e.caller < cg.nodes.length ∧ e.callee < cg.nodes.length) :
    CallGraph.write D out cg =
        some (out ++ "--NODES--\n" ++
          String.join (cg.nodes.map (fun n => "Node:\n" ++ FunctionDecl.rendering D n ++ "\n")) ++
          "\n--EDGES--\n" ++
          String.join ((cg.edges.filterMap (edgeIds cg.nodes)).map
            (fun p => "Edge:\n" ++ edgeRendering D p ++ "\n"))) ∧
      (cg.nodes.map (fun n => "Node:\n" ++ FunctionDecl.rendering D n ++ "\n")).length =
        cg.nodes.length ∧
      ((cg.edges.filterMap (edgeIds cg.nodes)).map
        (fun p => "Edge:\n" ++ edgeRendering D p ++ "\n")).length = cg.edges.length ∧
      cg.edges.map (edgeIds cg.nodes) = (cg.edges.filterMap (edgeIds cg.nodes)).map some := by
  have hmap : cg.edges.map (edgeIds cg.nodes) =
      (cg.edges.filterMap (edgeIds cg.nodes)).map some := by
    generalize cg.edges = es at h
    induction es with
    | nil => simp
    | cons e es ih =>
      obtain ⟨p, hp⟩ := edgeIds_of_lt cg.nodes e (h e (List.mem_cons_self _ _))
      rw [List.map_cons, List.filterMap_cons, hp, List.map_cons,
        ih (fun e1 h1 => h e1 (List.mem_cons_of_mem _ h1))]
  refine ⟨?_, by simp, ?_, hmap⟩
  · unfold CallGraph.write
    simp only []
    rw [foldlM_edges D cg.nodes cg.edges h,
      foldl_write _ (fun n => "Node:\n" ++ FunctionDecl.rendering D n ++ "\n")]
    intro o x
    rw [FunctionDecl_write_eq]
    simp [String.append_assoc]
  · have := congrArg List.length hmap
    simp only [List.length_map] at this
    simp only [List.length_map]
    exact this.symm


/-- Witness for C8: the dump of the graph of one self-recursive function. -/
theorem CallGraph_write_structure_witness :
    (∀ e ∈ ([{ caller := 0, callee := 0 }] : List Edge), e.caller < 1 ∧ e.callee < 1) ∧
      CallGraph.write ⟨fun e v => e ++ toString v, fun e v => e ++ v⟩ ""
          { nodes := [⟨1, "f", "int", [⟨2, "a", "int"⟩], ⟨"a.cpp", 1, 1⟩⟩],
            edges := [{ caller := 0, callee := 0 }] } =
        some ("" ++ "--NODES--\n" ++
          String.join ["Node:\n" ++ FunctionDecl.rendering ⟨fun e v => e ++ toString v, fun e v => e ++ v⟩
            ⟨1, "f", "int", [⟨2, "a", "int"⟩], ⟨"a.cpp", 1, 1⟩⟩ ++ "\n"] ++
          "\n--EDGES--\n" ++
          String.join ["Edge:\n" ++ edgeRendering ⟨fun e v => e ++ toString v, fun e v => e ++ v⟩
            (1, 1) ++ "\n"]) :=
  ⟨by decide,
    (CallGraph_write_structure ⟨fun e v => e ++ toString v, fun e v => e ++ v⟩ ""
      { nodes := [⟨1, "f", "int", [⟨2, "a", "int"⟩], ⟨"a.cpp", 1, 1⟩⟩],
        edges := [{ caller := 0, callee := 0 }] } (by decide)).1⟩

end clang_interface

namespace gui

theorem Path_compare_self (x : Path) : Path.compare x x = 0 := by
  induction x with
  | nil => rfl
  | cons a l ih =>
    unfold Path.compare
    rw [if_neg (lt_irrefl a), if_neg (lt_irrefl a)]
    exact ih

/-- Under the comparison function a directory orders before every entry that is
not a directory, and never the other way round. -/
theorem comp_directory_first (is_directory : Path → Bool) (x y : Path)
    (hx : is_directory x = true) (hy : is_directory y = false) :
    FileBrowser.get_directory_files.comp is_directory x y = true ∧
      FileBrowser.get_directory_files.comp is_directory y x = false := by
  simp [FileBrowser.get_directory_files.comp, hx, hy]

/-- C10 (the comparison function is not a strict weak ordering): whatever
`is_directory` is, every entry compares before itself, because both same-kind
branches return `compare(...) <= 0`; so irreflexivity and asymmetry fail, here
also at the file `/home/a.cpp`. -/
theorem comp_self_true :
    (∀ (is_directory : Path → Bool) (x : Path),
        FileBrowser.get_directory_files.comp is_directory x x = true) ∧
      FileBrowser.get_directory_files.comp (fun _ => false) ["home", "a.cpp"] ["home", "a.cpp"] =
        true := by
  have h : ∀ (is_directory : Path → Bool) (x : Path),
      FileBrowser.get_directory_files.comp is_directory x x = true := by
    intro is_directory x
    unfold FileBrowser.get_directory_files.comp
    rw [Path_compare_self]
    cases is_directory x <;> simp
  exact ⟨h, h _ _⟩

end gui
